import Mathlib

/-!
Verification of `scripts/strip_jsonc_comments.py` (`strip_comments`), a
single-pass JSONC comment stripper.  Text is modelled as `List Char`; the
Python cursor `i` is modelled by recursing on the remaining suffix of the
input, so `jsonc_text[i:i+2] == "xy"` becomes a pattern on the first two
elements of the suffix.
-/

/-- The inner `while i < len(jsonc_text) and jsonc_text[i] != "\n": i += 1`
loop of the `//` branch: returns the suffix starting at the first newline
(or `[]` at end of input).  The newline itself is not consumed. -/
def skipLine : List Char → List Char
  | [] => []
  | c :: rest => if c = '\n' then c :: rest else skipLine rest

/-- The inner loop of the `/*` branch:
`while i < len(jsonc_text) - 1: if jsonc_text[i:i+2] == "*/": i += 2; break
else i += 1`.  The guard `i < len - 1` means the body runs only while at
least two characters remain, so when no `*/` is found the loop stops with
one character left unconsumed (the source's off-by-one). -/
def skipBlock : List Char → List Char
  | c1 :: c2 :: rest => if c1 = '*' ∧ c2 = '/' then rest else skipBlock (c2 :: rest)
  | l => l
termination_by l => l.length

theorem skipLine_length_le (l : List Char) : (skipLine l).length ≤ l.length := by
  induction l with
  | nil => simp [skipLine]
  | cons c rest ih =>
    simp only [skipLine]
    split
    · simp
    · exact Nat.le_succ_of_le ih

theorem skipBlock_length_le (l : List Char) : (skipBlock l).length ≤ l.length := by
  induction l using skipBlock.induct with
  | case1 c1 c2 rest h =>
    rw [skipBlock, if_pos h]
    simp only [List.length_cons]
    omega
  | case2 c1 c2 rest h ih =>
    rw [skipBlock, if_neg h]
    exact Nat.le_trans ih (by simp)
  | case3 l h =>
    rw [skipBlock.eq_def]
    split
    · rename_i h1 h2; exact absurd rfl (h _ _ _)
    · exact Nat.le_refl _

/-- The main `while i < len(jsonc_text)` loop of `strip_comments`, with the
remaining input as first argument and the two flags `in_string` and
`escape_next` as extra arguments.  Each `if ... continue` branch of the
Python loop body is one branch of the cascade, recursion replaces `continue`.
In the `//` branch the Python code skips from the first `/` (which is not a
newline) onward; skipping from `rest` is the same since `skipLine` also
discards the second `/`. -/
def stripGo : List Char → Bool → Bool → List Char
  | [], _, _ => []
  | c :: rest, in_string, escape_next =>
    if escape_next = true then
      c :: stripGo rest in_string false
    else if c = '\\' ∧ in_string = true then
      c :: stripGo rest in_string true
    else if c = '"' ∧ escape_next = false then
      c :: stripGo rest (!in_string) false
    else if in_string = false ∧ c = '/' ∧ rest.head? = some '/' then
      stripGo (skipLine rest) in_string escape_next
    else if in_string = false ∧ c = '/' ∧ rest.head? = some '*' then
      stripGo (skipBlock rest.tail) in_string escape_next
    else
      c :: stripGo rest in_string escape_next
termination_by l _ _ => l.length
decreasing_by
  · simp
  · simp
  · simp
  · exact Nat.lt_succ_of_le (skipLine_length_le rest)
  · have h1 := skipBlock_length_le rest.tail
    have h2 : rest.tail.length ≤ rest.length := by
      simp only [List.length_tail]
      omega
    simp only [List.length_cons]
    omega
  · simp

/-- `strip_comments` on character lists: the loop started with `i = 0`,
`in_string = False`, `escape_next = False`. -/
def stripComments (l : List Char) : List Char := stripGo l false false

/-- `strip_comments : str -> str` itself. -/
def strip_comments (s : String) : String := String.mk (stripComments s.data)

/-- One iteration of the main loop, as an explicit state transformer: given the
remaining input and the two flags, it returns the remaining input, the flags
after the iteration, and the characters appended to `result` during it.  The
branches are those of `stripGo`. -/
structure StepResult where
  remaining : List Char
  in_string : Bool
  escape_next : Bool
  emitted : List Char

/-- The body of the `while i < len(jsonc_text)` loop as a single step. -/
def stripStep : List Char → Bool → Bool → StepResult
  | [], s, e => ⟨[], s, e, []⟩
  | c :: rest, s, e =>
    if e = true then ⟨rest, s, false, [c]⟩
    else if c = '\\' ∧ s = true then ⟨rest, s, true, [c]⟩
    else if c = '"' ∧ e = false then ⟨rest, !s, false, [c]⟩
    else if s = false ∧ c = '/' ∧ rest.head? = some '/' then ⟨skipLine rest, s, e, []⟩
    else if s = false ∧ c = '/' ∧ rest.head? = some '*' then ⟨skipBlock rest.tail, s, e, []⟩
    else ⟨rest, s, e, [c]⟩

/-- Whether the two-character sequence `x y` occurs (contiguously) in `l`. -/
def containsSeq (x y : Char) : List Char → Bool
  | [] => false
  | a :: rest => (a == x && rest.head? == some y) || containsSeq x y rest

/-! ### Unfolding lemmas for the loop branches -/

theorem stripGo_nil (s e : Bool) : stripGo [] s e = [] := by
  rw [stripGo]

theorem stripGo_escape (c : Char) (rest : List Char) (s : Bool) :
    stripGo (c :: rest) s true = c :: stripGo rest s false := by
  rw [stripGo]
  simp

theorem stripGo_backslash (rest : List Char) :
    stripGo ('\\' :: rest) true false = '\\' :: stripGo rest true true := by
  rw [stripGo]
  simp

theorem stripGo_quote (rest : List Char) (s : Bool) :
    stripGo ('"' :: rest) s false = '"' :: stripGo rest (!s) false := by
  rw [stripGo]
  simp

theorem stripGo_line (rest : List Char) (h : rest.head? = some '/') :
    stripGo ('/' :: rest) false false = stripGo (skipLine rest) false false := by
  rw [stripGo]
  simp [h]

theorem stripGo_block (rest : List Char) (h : rest.head? = some '*') :
    stripGo ('/' :: rest) false false = stripGo (skipBlock rest.tail) false false := by
  rw [stripGo]
  simp [h]

theorem stripGo_other (c : Char) (rest : List Char) (s : Bool)
    (h1 : ¬(c = '\\' ∧ s = true)) (h2 : c ≠ '"')
    (h3 : ¬(s = false ∧ c = '/' ∧ rest.head? = some '/'))
    (h4 : ¬(s = false ∧ c = '/' ∧ rest.head? = some '*')) :
    stripGo (c :: rest) s false = c :: stripGo rest s false := by
  rw [stripGo]
  simp [h1, h2, h3, h4]

/-- When the scan is outside a string with no pending escape and the current
character is not `/`, that character is the first character of the output. -/
theorem stripGo_head_of_ne_slash (r : Char) (rest : List Char) (h : r ≠ '/') :
    (stripGo (r :: rest) false false).head? = some r := by
  by_cases hq : r = '"'
  · subst hq
    rw [stripGo_quote]
    rfl
  · rw [stripGo_other r rest false (by simp) hq (by simp [h]) (by simp [h])]
    rfl

/-! ### Properties of the skip helpers -/

theorem skipLine_append (a rest : List Char) (h : '\n' ∉ a) :
    skipLine (a ++ '\n' :: rest) = '\n' :: rest := by
  induction a with
  | nil =>
    rw [List.nil_append, skipLine, if_pos rfl]
  | cons c a' ih =>
    have hc : c ≠ '\n' := fun hh => h (by rw [← hh]; exact List.mem_cons_self c a')
    rw [List.cons_append, skipLine, if_neg hc]
    exact ih (fun hh => h (List.mem_cons_of_mem c hh))

theorem skipLine_eq_nil (a : List Char) (h : '\n' ∉ a) : skipLine a = [] := by
  induction a with
  | nil => rw [skipLine]
  | cons c a' ih =>
    have hc : c ≠ '\n' := fun hh => h (by rw [← hh]; exact List.mem_cons_self c a')
    rw [skipLine, if_neg hc]
    exact ih (fun hh => h (List.mem_cons_of_mem c hh))

theorem containsSeq_tail (x y c : Char) (rest : List Char)
    (h : containsSeq x y (c :: rest) = false) : containsSeq x y rest = false := by
  rw [containsSeq] at h
  exact (Bool.or_eq_false_iff.mp h).2

theorem containsSeq_head (x y c : Char) (rest : List Char)
    (h : containsSeq x y (c :: rest) = false) (hc : c = x) :
    rest.head? ≠ some y := by
  rw [containsSeq] at h
  have h1 := (Bool.or_eq_false_iff.mp h).1
  intro hb
  rw [hc, hb] at h1
  simp at h1

theorem skipBlock_append (a rest : List Char) (h : containsSeq '*' '/' a = false) :
    skipBlock (a ++ '*' :: '/' :: rest) = rest := by
  induction a with
  | nil =>
    rw [List.nil_append, skipBlock, if_pos ⟨rfl, rfl⟩]
  | cons c a' ih =>
    cases a' with
    | nil =>
      rw [List.cons_append, List.nil_append, skipBlock, if_neg (by simp),
        skipBlock, if_pos ⟨rfl, rfl⟩]
    | cons c2 a'' =>
      have hcc : ¬(c = '*' ∧ c2 = '/') := by
        rintro ⟨h1, h2⟩
        exact containsSeq_head '*' '/' c (c2 :: a'') h h1 (by rw [h2]; rfl)
      rw [List.cons_append, List.cons_append, skipBlock, if_neg hcc,
        ← List.cons_append]
      exact ih (containsSeq_tail '*' '/' c (c2 :: a'') h)

theorem skipLine_sublist (l : List Char) : (skipLine l).Sublist l := by
  induction l with
  | nil => rw [skipLine]
  | cons c rest ih =>
    rw [skipLine]
    split
    · exact List.Sublist.refl _
    · exact List.Sublist.cons c ih

theorem skipBlock_sublist (l : List Char) : (skipBlock l).Sublist l := by
  induction l using skipBlock.induct with
  | case1 c1 c2 rest h =>
    rw [skipBlock, if_pos h]
    exact List.Sublist.cons c1 (List.Sublist.cons c2 (List.Sublist.refl rest))
  | case2 c1 c2 rest h ih =>
    rw [skipBlock, if_neg h]
    exact List.Sublist.cons c1 ih
  | case3 l h =>
    rw [skipBlock.eq_def]
    split
    · rename_i h1 h2
      exact absurd rfl (h _ _ _)
    · exact List.Sublist.refl _

/-- Inside a string (with no pending escape), characters that are neither a
quote nor a backslash are copied through verbatim. -/
theorem stripGo_in_string (a rest : List Char) (hq : '"' ∉ a) (hb : '\\' ∉ a) :
    stripGo (a ++ rest) true false = a ++ stripGo rest true false := by
  induction a with
  | nil => rw [List.nil_append, List.nil_append]
  | cons c a' ih =>
    have hcq : c ≠ '"' := fun hh => hq (by rw [← hh]; exact List.mem_cons_self c a')
    have hcb : c ≠ '\\' := fun hh => hb (by rw [← hh]; exact List.mem_cons_self c a')
    rw [List.cons_append,
      stripGo_other c (a' ++ rest) true (by simp [hcb]) hcq (by simp) (by simp),
      List.cons_append]
    rw [ih (fun hh => hq (List.mem_cons_of_mem c hh))
      (fun hh => hb (List.mem_cons_of_mem c hh))]

/-! ### Core lemmas about the scan -/

/-- `stripStep` is the loop body of `stripGo`: one unfolding of `stripGo` on a
nonempty input emits `stripStep`'s characters and continues from its state. -/
theorem stripGo_eq_step (c : Char) (rest : List Char) (s e : Bool) :
    stripGo (c :: rest) s e =
      (stripStep (c :: rest) s e).emitted ++
        stripGo (stripStep (c :: rest) s e).remaining
          (stripStep (c :: rest) s e).in_string (stripStep (c :: rest) s e).escape_next := by
  by_cases h1 : e = true
  · subst h1
    rw [stripGo_escape]
    simp [stripStep]
  · have he : e = false := by simpa using h1
    subst he
    by_cases h2 : c = '\\' ∧ s = true
    · obtain ⟨hc, hs⟩ := h2
      subst hc
      subst hs
      rw [stripGo_backslash]
      simp [stripStep]
    · by_cases h3 : c = '"'
      · subst h3
        rw [stripGo_quote]
        simp [stripStep, h2]
      · by_cases h4 : s = false ∧ c = '/' ∧ rest.head? = some '/'
        · obtain ⟨hs, hc, hh⟩ := h4
          subst hs
          subst hc
          rw [stripGo_line rest hh]
          simp [stripStep, hh, h2]
        · by_cases h5 : s = false ∧ c = '/' ∧ rest.head? = some '*'
          · obtain ⟨hs, hc, hh⟩ := h5
            subst hs
            subst hc
            rw [stripGo_block rest hh]
            simp [stripStep, hh, h2, h4]
          · rw [stripGo_other c rest s h2 h3 h4 h5]
            simp [stripStep, h2, h3, h4, h5]

/-- The string-context flag changes across a loop iteration only when the
character at the cursor is a double quote with no pending escape. -/
theorem stripStep_in_string_toggle (c : Char) (rest : List Char) (s e : Bool)
    (h : (stripStep (c :: rest) s e).in_string ≠ s) : c = '"' ∧ e = false := by
  by_cases h1 : e = true
  · exact absurd (by simp [stripStep, h1]) h
  · have he : e = false := by simpa using h1
    subst he
    by_cases h3 : c = '"'
    · exact ⟨h3, rfl⟩
    · exfalso
      apply h
      by_cases h2 : c = '\\' ∧ s = true
      · simp [stripStep, h2]
      · by_cases h4 : s = false ∧ c = '/' ∧ rest.head? = some '/'
        · simp [stripStep, h4, h2, h3]
        · by_cases h5 : s = false ∧ c = '/' ∧ rest.head? = some '*'
          · simp [stripStep, h5, h4, h2, h3]
          · simp [stripStep, h2, h3, h4, h5]

/-- Every loop iteration on a nonempty remaining input strictly shrinks it
(the cursor strictly increases), so the scan terminates. -/
theorem stripStep_remaining_lt (l : List Char) (s e : Bool) (h : l ≠ []) :
    (stripStep l s e).remaining.length < l.length := by
  cases l with
  | nil => exact absurd rfl h
  | cons c rest =>
    have hline := skipLine_length_le rest
    have hblock := skipBlock_length_le rest.tail
    have htail : rest.tail.length ≤ rest.length := by
      simp only [List.length_tail]
      omega
    by_cases h1 : e = true
    · simp [stripStep, h1]
    · have he : e = false := by simpa using h1
      subst he
      by_cases h2 : c = '\\' ∧ s = true
      · simp [stripStep, h2]
      · by_cases h3 : c = '"'
        · simp [stripStep, h3]
        · by_cases h4 : s = false ∧ c = '/' ∧ rest.head? = some '/'
          · simp [stripStep, h4, h2, h3]
            omega
          · by_cases h5 : s = false ∧ c = '/' ∧ rest.head? = some '*'
            · simp [stripStep, h5, h4, h2, h3]
              omega
            · simp [stripStep, h2, h3, h4, h5]

/-- The output of the scan is a subsequence of its input. -/
theorem stripGo_sublist (l : List Char) (s e : Bool) : (stripGo l s e).Sublist l := by
  induction l, s, e using stripGo.induct with
  | case1 s e =>
    rw [stripGo_nil]
  | case2 c rest s ih =>
    rw [stripGo_escape]
    exact List.Sublist.cons₂ c ih
  | case3 c rest s e h1 h2 ih =>
    obtain ⟨hc, hs⟩ := h2
    subst hc
    subst hs
    have he : e = false := by simpa using h1
    subst he
    rw [stripGo_backslash]
    exact List.Sublist.cons₂ '\\' ih
  | case4 c rest s e h1 h2 h3 ih =>
    obtain ⟨hc, he⟩ := h3
    subst hc
    subst he
    rw [stripGo_quote]
    exact List.Sublist.cons₂ '"' ih
  | case5 c rest s e h1 h2 h3 h4 ih =>
    obtain ⟨hs, hc, hh⟩ := h4
    subst hs
    subst hc
    have he : e = false := by simpa using h1
    subst he
    rw [stripGo_line rest hh]
    exact List.Sublist.cons '/' (ih.trans (skipLine_sublist rest))
  | case6 c rest s e h1 h2 h3 h4 h5 ih =>
    obtain ⟨hs, hc, hh⟩ := h5
    subst hs
    subst hc
    have he : e = false := by simpa using h1
    subst he
    rw [stripGo_block rest hh]
    exact List.Sublist.cons '/'
      (ih.trans ((skipBlock_sublist rest.tail).trans (List.tail_sublist rest)))
  | case7 c rest s e h1 h2 h3 h4 h5 ih =>
    have he : e = false := by simpa using h1
    subst he
    have hq : c ≠ '"' := fun hc => h3 ⟨hc, rfl⟩
    rw [stripGo_other c rest s h2 hq h4 h5]
    exact List.Sublist.cons₂ c ih

/-- On input with no quote and no `//` or `/*` sequence, the scan started in
the initial state is the identity. -/
theorem stripGo_id_of_no_markers (l : List Char) (hq : '"' ∉ l)
    (h1 : containsSeq '/' '/' l = false) (h2 : containsSeq '/' '*' l = false) :
    stripGo l false false = l := by
  induction l with
  | nil => rw [stripGo_nil]
  | cons c rest ih =>
    have hcq : c ≠ '"' := fun hh => hq (by rw [← hh]; exact List.mem_cons_self c rest)
    have h3 : ¬(false = false ∧ c = '/' ∧ rest.head? = some '/') := by
      rintro ⟨-, hc, hh⟩
      exact containsSeq_head '/' '/' c rest h1 hc hh
    have h4 : ¬(false = false ∧ c = '/' ∧ rest.head? = some '*') := by
      rintro ⟨-, hc, hh⟩
      exact containsSeq_head '/' '*' c rest h2 hc hh
    rw [stripGo_other c rest false (by simp) hcq h3 h4]
    rw [ih (fun hh => hq (List.mem_cons_of_mem c hh))
      (containsSeq_tail '/' '/' c rest h1) (containsSeq_tail '/' '*' c rest h2)]

/-- The scan is idempotent from any starting state: rescanning its own output
reproduces that output. -/
theorem stripGo_idem (l : List Char) (s e : Bool) :
    stripGo (stripGo l s e) s e = stripGo l s e := by
  induction l, s, e using stripGo.induct with
  | case1 s e =>
    rw [stripGo_nil, stripGo_nil]
  | case2 c rest s ih =>
    rw [stripGo_escape, stripGo_escape, ih]
  | case3 c rest s e h1 h2 ih =>
    obtain ⟨hc, hs⟩ := h2
    subst hc
    subst hs
    have he : e = false := by simpa using h1
    subst he
    rw [stripGo_backslash, stripGo_backslash, ih]
  | case4 c rest s e h1 h2 h3 ih =>
    obtain ⟨hc, he⟩ := h3
    subst hc
    subst he
    rw [stripGo_quote, stripGo_quote, ih]
  | case5 c rest s e h1 h2 h3 h4 ih =>
    obtain ⟨hs, hc, hh⟩ := h4
    subst hs
    subst hc
    have he : e = false := by simpa using h1
    subst he
    rw [stripGo_line rest hh]
    exact ih
  | case6 c rest s e h1 h2 h3 h4 h5 ih =>
    obtain ⟨hs, hc, hh⟩ := h5
    subst hs
    subst hc
    have he : e = false := by simpa using h1
    subst he
    rw [stripGo_block rest hh]
    exact ih
  | case7 c rest s e h1 h2 h3 h4 h5 ih =>
    have he : e = false := by simpa using h1
    subst he
    have hq : c ≠ '"' := fun hc => h3 ⟨hc, rfl⟩
    have hx : ∀ y : Char, ¬(s = false ∧ c = '/' ∧ rest.head? = some y) →
        ¬(s = false ∧ c = '/' ∧ (stripGo rest s false).head? = some y) := by
      intro y hy
      rintro ⟨hs, hc, hhead⟩
      subst hs
      subst hc
      cases rest with
      | nil =>
        rw [stripGo_nil] at hhead
        simp at hhead
      | cons r rest₂ =>
        have hr : r ≠ '/' := by
          intro hr
          exact h4 ⟨rfl, rfl, by rw [hr]; rfl⟩
        rw [stripGo_head_of_ne_slash r rest₂ hr] at hhead
        have hry : r = y := by simpa using hhead
        exact hy ⟨rfl, rfl, by rw [hry]; rfl⟩
    rw [stripGo_other c rest s h2 hq h4 h5]
    rw [stripGo_other c (stripGo rest s false) s h2 hq (hx '/' h4) (hx '*' h5)]
    rw [ih]

/-! ### Claims -/

/-- C1: the code does not satisfy the claim.  The block-comment skip loop runs
only while `i < len - 1`, so an unterminated block comment leaves the final
input character unconsumed, and that character is then emitted: on input
`1 /* never closed` the output is `1 d` and not the claimed `1 `. -/
theorem strip_comments_unterminated_block_leak :
    strip_comments "1 /* never closed" = "1 d" ∧
      strip_comments "1 /* never closed" ≠ "1 " := by
  have h : strip_comments "1 /* never closed" = "1 d" := by
    simp [strip_comments, stripComments, stripGo, skipLine, skipBlock]
  refine ⟨h, ?_⟩
  rw [h]
  decide

/-- C2: `strip` is idempotent: `strip (strip x) = strip x` for every input. -/
theorem strip_comments_idempotent (s : String) :
    strip_comments (strip_comments s) = strip_comments s :=
  congrArg String.mk (stripGo_idem s.data false false)

/-- C3: on input containing no `"` character and no `//` or `/*` two-character
sequence, `strip` is the identity (in particular the empty string maps to
itself, since the hypotheses hold vacuously there). -/
theorem strip_comments_identity_no_markers (s : String)
    (hq : '"' ∉ s.data)
    (h1 : containsSeq '/' '/' s.data = false)
    (h2 : containsSeq '/' '*' s.data = false) :
    strip_comments s = s := by
  calc strip_comments s = String.mk (stripGo s.data false false) := rfl
    _ = String.mk s.data := by rw [stripGo_id_of_no_markers s.data hq h1 h2]
    _ = s := rfl

theorem strip_comments_identity_no_markers_witness :
    ('"' ∉ ("a\\b\nc/d" : String).data ∧
        containsSeq '/' '/' ("a\\b\nc/d" : String).data = false ∧
        containsSeq '/' '*' ("a\\b\nc/d" : String).data = false) ∧
      strip_comments "a\\b\nc/d" = "a\\b\nc/d" :=
  ⟨⟨by decide, by decide, by decide⟩,
    strip_comments_identity_no_markers "a\\b\nc/d" (by decide) (by decide) (by decide)⟩

/-- C4: on `//` outside a string, everything up to but excluding the next
newline is dropped; the newline itself is emitted on the next iteration (and
with no newline the rest of the input is dropped); on the spec's example the
comment text is removed and the newline preserved. -/
theorem strip_comments_line_comment :
    (∀ (a rest : List Char), '\n' ∉ a →
        stripGo ('/' :: '/' :: (a ++ '\n' :: rest)) false false =
          '\n' :: stripGo rest false false) ∧
    (∀ a : List Char, '\n' ∉ a → stripGo ('/' :: '/' :: a) false false = []) ∧
    strip_comments "\x7b\"a\": 1, // trailing\n\"b\": 2\x7d" = "\x7b\"a\": 1, \n\"b\": 2\x7d" := by
  refine ⟨?_, ?_, ?_⟩
  · intro a rest h
    rw [stripGo_line ('/' :: (a ++ '\n' :: rest)) rfl]
    rw [skipLine, if_neg (by decide : ¬('/' : Char) = '\n'), skipLine_append a rest h]
    rw [stripGo_other '\n' rest false (by simp) (by decide) (by simp) (by simp)]
  · intro a h
    rw [stripGo_line ('/' :: a) rfl]
    rw [skipLine, if_neg (by decide : ¬('/' : Char) = '\n'), skipLine_eq_nil a h]
    rw [stripGo_nil]
  · simp [strip_comments, stripComments, stripGo, skipLine, skipBlock]

theorem strip_comments_line_comment_witness :
    stripGo ('/' :: '/' :: (['x'] ++ '\n' :: ['y'])) false false = ['\n', 'y'] ∧
      stripGo ('/' :: '/' :: ['x']) false false = [] := by
  constructor
  · rw [strip_comments_line_comment.1 ['x'] ['y'] (by decide)]
    rw [stripGo_other 'y' [] false (by simp) (by decide) (by simp) (by simp), stripGo_nil]
  · exact strip_comments_line_comment.2.1 ['x'] (by decide)

/-- C5: on `/*` outside a string with a later matching `*/`, the delimiters
and everything between them (newlines included) are removed and contribute
nothing to the output; on the spec's example the comment vanishes. -/
theorem strip_comments_block_comment :
    (∀ (a rest : List Char), containsSeq '*' '/' a = false →
        stripGo ('/' :: '*' :: (a ++ '*' :: '/' :: rest)) false false =
          stripGo rest false false) ∧
    strip_comments "\x7b\"a\": /* c1\nc2 */ 1\x7d" = "\x7b\"a\":  1\x7d" := by
  constructor
  · intro a rest h
    rw [stripGo_block ('*' :: (a ++ '*' :: '/' :: rest)) rfl]
    show stripGo (skipBlock (a ++ '*' :: '/' :: rest)) false false = _
    rw [skipBlock_append a rest h]
  · simp [strip_comments, stripComments, stripGo, skipLine, skipBlock]

theorem strip_comments_block_comment_witness :
    stripGo ('/' :: '*' :: (['c'] ++ '*' :: '/' :: ['1'])) false false = ['1'] := by
  rw [strip_comments_block_comment.1 ['c'] ['1'] (by decide)]
  rw [stripGo_other '1' [] false (by simp) (by decide) (by simp) (by simp), stripGo_nil]

/-- C6: `//` and `/*` inside a double-quoted string are not comment starts:
the whole string literal, quotes included, is copied unchanged. -/
theorem strip_comments_preserves_strings :
    (∀ (a rest : List Char), '"' ∉ a → '\\' ∉ a →
        stripGo ('"' :: (a ++ '"' :: rest)) false false =
          '"' :: (a ++ '"' :: stripGo rest false false)) ∧
    strip_comments "\"// not a comment\"" = "\"// not a comment\"" := by
  constructor
  · intro a rest hq hb
    rw [stripGo_quote, Bool.not_false, stripGo_in_string a ('"' :: rest) hq hb, stripGo_quote]
    simp
  · simp [strip_comments, stripComments, stripGo, skipLine, skipBlock]

theorem strip_comments_preserves_strings_witness :
    stripGo ('"' :: (['/', '/'] ++ '"' :: [])) false false =
      '"' :: (['/', '/'] ++ '"' :: []) := by
  rw [strip_comments_preserves_strings.1 ['/', '/'] [] (by decide) (by decide), stripGo_nil]

/-- C7: across any loop iteration the string-context flag changes value only
when the character at the cursor is a double quote with no pending escape; an
escaped quote is consumed by the escape branch and does not toggle it, so the
spec's escaped-quote example is returned unchanged. -/
theorem strip_in_string_toggle_only_at_quote :
    (∀ (c : Char) (rest : List Char) (s e : Bool),
        (stripStep (c :: rest) s e).in_string ≠ s → c = '"' ∧ e = false) ∧
    strip_comments "\"a \\\"// still string\\\" b\"" = "\"a \\\"// still string\\\" b\"" := by
  constructor
  · exact stripStep_in_string_toggle
  · simp [strip_comments, stripComments, stripGo, skipLine, skipBlock]

theorem strip_in_string_toggle_only_at_quote_witness :
    (stripStep ('"' :: []) false false).in_string ≠ false ∧
      ('"' : Char) = '"' ∧ (false : Bool) = false :=
  ⟨by decide, strip_in_string_toggle_only_at_quote.1 '"' [] false false (by decide)⟩

/-- C8: the scan is total: every iteration on nonempty remaining input
strictly shrinks it, and the function returns normally on empty input,
unterminated strings and unterminated comments alike. -/
theorem strip_comments_total_progress :
    (∀ (l : List Char) (s e : Bool), l ≠ [] →
        (stripStep l s e).remaining.length < l.length) ∧
    strip_comments "" = "" ∧
    strip_comments "\"unterminated" = "\"unterminated" ∧
    strip_comments "/*abc" = "c" := by
  refine ⟨stripStep_remaining_lt, ?_, ?_, ?_⟩
  · simp [strip_comments, stripComments, stripGo]
  · simp [strip_comments, stripComments, stripGo, skipLine, skipBlock]
  · simp [strip_comments, stripComments, stripGo, skipLine, skipBlock]

theorem strip_comments_total_progress_witness :
    ((['a'] : List Char) ≠ []) ∧
      (stripStep ['a'] false false).remaining.length < (['a'] : List Char).length :=
  ⟨by decide, strip_comments_total_progress.1 ['a'] false false (by decide)⟩

/-- C9: the output of `strip` is a subsequence of its input (same characters,
same relative order), hence never longer than the input. -/
theorem strip_comments_subsequence :
    (∀ s : String, ((strip_comments s).data).Sublist s.data) ∧
    (∀ s : String, (strip_comments s).length ≤ s.length) := by
  constructor
  · intro s
    exact stripGo_sublist s.data false false
  · intro s
    exact List.Sublist.length_le (stripGo_sublist s.data false false)

/-- C10: a dangling backslash at end of input inside a string is copied to the
output and the pending escape is discarded without error, so the output ends
with that backslash. -/
theorem strip_comments_dangling_backslash :
    stripGo ['\\'] true false = ['\\'] ∧
    (∀ a : List Char, '"' ∉ a → '\\' ∉ a →
        stripComments ('"' :: (a ++ ['\\'])) = '"' :: (a ++ ['\\'])) ∧
    strip_comments "\"ab\\" = "\"ab\\" := by
  refine ⟨?_, ?_, ?_⟩
  · rw [stripGo_backslash, stripGo_nil]
  · intro a hq hb
    show stripGo ('"' :: (a ++ ['\\'])) false false = _
    rw [stripGo_quote, Bool.not_false, stripGo_in_string a ['\\'] hq hb,
      stripGo_backslash, stripGo_nil]
  · simp [strip_comments, stripComments, stripGo, skipLine, skipBlock]

theorem strip_comments_dangling_backslash_witness :
    stripComments ('"' :: (['a'] ++ ['\\'])) = '"' :: (['a'] ++ ['\\']) :=
  strip_comments_dangling_backslash.2.1 ['a'] (by decide) (by decide)
